import Mathlib

/-!
Verification of the lazyboy data-mapping layer (record.py, supercolumn.py)
against its specification.

The embedding models Python object identity explicitly: `Column` objects
live in a heap (`List Column`), and the `_original` / `_columns` dicts map
column names to heap references (indices).  `copy.copy` allocates a fresh
cell; in-place attribute mutation writes through the reference.  Python
dicts are modelled as association lists; claim statements only concern key
membership and values, never dict ordering.
-/

set_option maxRecDepth 4000

namespace Lazyboy

/-- A Cassandra column: name/value/timestamp triple (cassandra.ttypes.Column,
external to the repository; fields as used by record.py).  A freshly
constructed `Column(name=item)` has its value and timestamp unset; record.py
always assigns both before the cell is observable, so the defaults below are
never visible. -/
structure Column where
  name : String
  value : String := ""
  timestamp : Nat := 0
deriving DecidableEq, Repr

def defaultCol : Column := {name := "", value := "", timestamp := 0}

/-- Association-list lookup (Python `dict.get`). -/
def alook {α : Type} : List (String × α) → String → Option α
  | [], _ => none
  | (k, v) :: rest, key => if k = key then some v else alook rest key

/-- Association-list insert/overwrite (Python `dict[k] = v`). -/
def aset {α : Type} : List (String × α) → String → α → List (String × α)
  | [], key, v => [(key, v)]
  | (k, w) :: rest, key, v =>
      if k = key then (key, v) :: rest else (k, w) :: aset rest key v

/-- Association-list key removal (Python `del dict[k]`; no-op when absent,
callers guard presence). -/
def adel {α : Type} : List (String × α) → String → List (String × α)
  | [], _ => []
  | (k, w) :: rest, key => if k = key then adel rest key else (k, w) :: adel rest key

/-- Python `k in dict`. -/
def amem {α : Type} (l : List (String × α)) (key : String) : Bool :=
  (alook l key).isSome

/-- The keys of a dict. -/
def akeys {α : Type} (l : List (String × α)) : List String := l.map Prod.fst

/-- Modelled from the spec: key.py is not under src/.  A structured storage
path: "column-family scoped if no super_column, else
column-family→super_column→column"; "Path equality is purely structural". -/
structure ColumnPath where
  column_family : String
  super_column : Option String := none
  column : Option String := none
deriving DecidableEq, Repr

/-- Modelled from the spec: key.py is not under src/.  A Key addresses
"keyspace, column family, row key, optional super-column". -/
structure Key where
  keyspace : String
  column_family : String
  key : String
  super_column : Option String := none
deriving DecidableEq, Repr

/-- Modelled from the spec: `get_path(column?)` builds the structured path
for this key, with the given column name filled in. -/
def Key.getPath (k : Key) (column : Option String := none) : ColumnPath :=
  { column_family := k.column_family, super_column := k.super_column,
    column := column }

/-- Modelled from the spec: `is_super()` ⇔ super_column is set. -/
def Key.isSuper (k : Key) : Bool := k.super_column.isSome

/-- The state of a `Record` (record.py).  `data` is the visible dict contents
(Record subclasses dict); `original` is `self._original`, `columns` is
`self._columns` (both name → heap reference); `modified` is
`self._modified` (name → True), `deleted` is `self._deleted`
(name → (name was in `_original`), per `__delitem__`). -/
structure RecordState where
  data : List (String × String)
  heap : List Column
  original : List (String × Nat)
  columns : List (String × Nat)
  modified : List (String × Bool)
  deleted : List (String × Bool)
  key : Option Key
deriving DecidableEq, Repr

/-- `Record._clean`: everything emptied, key unset. -/
def cleanState : RecordState :=
  { data := [], heap := [], original := [], columns := [],
    modified := [], deleted := [], key := none }

/-- `Record.sanitize`: rejects None (modelled by taking `String`, not
`Option String`), utf-8-encodes unicode and applies `str`, the identity on
the byte strings modelled here. -/
def sanitize (v : String) : String := v

/-- `Record.is_modified`: `bool(len(self._modified) + len(self._deleted))`. -/
def RecordState.isModified (s : RecordState) : Bool :=
  s.modified.length + s.deleted.length ≠ 0

/-- `Record.missing`: the required items on which `self.get` is falsy —
absent, or present with an empty (falsy) string value. -/
def RecordState.missing (s : RecordState) (required : List String) : List String :=
  required.filter (fun r =>
    match alook s.data r with
    | some v => v = ""
    | none => true)

/-- The early-return guard of `Record.__setitem__` (lines 136–139):
`_orig and _orig.value == value` — the original column exists (a Column
object is always truthy) and already holds the sanitized value. -/
def RecordState.setNoop (s : RecordState) (item rawValue : String) : Bool :=
  match alook s.original item with
  | some r => (s.heap.getD r defaultCol).value == sanitize rawValue
  | none => false

/-- `Record.__setitem__` (record.py lines 131–159).  Mirrors the source
line by line: sanitize; early return on `setNoop`; `dict.__setitem__`;
allocate `Column(name=item)` when absent from `_columns`; drop the pending
deletion; mark modified; copy-on-write when `_columns[item] is _orig`;
finally assign value and timestamp through the reference. -/
def RecordState.setitem (s : RecordState) (item rawValue : String) (ts : Nat) :
    RecordState :=
  let value := sanitize rawValue
  let origRef := alook s.original item
  if s.setNoop item rawValue then s
  else
    let data := aset s.data item value
    let (heap1, columns1) :=
      match alook s.columns item with
      | some _ => (s.heap, s.columns)
      | none => (s.heap ++ [{ name := item : Column }],
                 aset s.columns item s.heap.length)
    let deleted := adel s.deleted item
    let modified := aset s.modified item true
    let curRef := (alook columns1 item).getD 0
    let (heap2, columns2) :=
      if origRef = some curRef then
        (heap1 ++ [heap1.getD curRef defaultCol], aset columns1 item heap1.length)
      else (heap1, columns1)
    let curRef2 := (alook columns2 item).getD 0
    let heap3 := heap2.set curRef2
      { heap2.getD curRef2 defaultCol with value := value, timestamp := ts }
    { s with data := data, heap := heap3, original := s.original,
             columns := columns2, modified := modified, deleted := deleted }

/-- `Record.__delitem__` (record.py lines 161–167).  `none` models the
KeyError raised when the item is absent (from the visible dict or from
`_columns`; on reachable states their key sets coincide). -/
def RecordState.delitem (s : RecordState) (item : String) : Option RecordState :=
  match alook s.data item, alook s.columns item with
  | some _, some _ =>
      some { s with data := adel s.data item,
                    deleted := aset s.deleted item (amem s.original item),
                    modified := adel s.modified item,
                    columns := adel s.columns item }
  | _, _ => none

/-- `Record._inject` applied to a clean record, which is exactly
`Record.load` after the slice fetch (record.py lines 169–200): every fetched
column becomes a heap cell referenced from `_original`, the visible dict gets
its value, and `_columns = copy.copy(_original)` shares the references. -/
def RecordState.loadRec (k : Key) (cols : List Column) : RecordState :=
  let step := fun (acc : List Column × List (String × Nat) × List (String × String))
      (c : Column) =>
    (acc.1 ++ [c], aset acc.2.1 c.name acc.1.length, aset acc.2.2 c.name c.value)
  let res := cols.foldl step ([], [], [])
  { data := res.2.2, heap := res.1, original := res.2.1, columns := res.2.1,
    modified := [], deleted := [], key := some k }

/-- The `{deleted, changed}` diff produced by `Record._marshal`. -/
structure MarshalDiff where
  deleted : List ColumnPath
  changed : List Column
deriving DecidableEq, Repr

/-- `Record._marshal` (record.py lines 186–191): one `get_path(column=col)`
per key of `_deleted`, and `self._columns[key]` for each key of `_modified`
(a key of `_modified` absent from `_columns` would raise KeyError in the
source; it is skipped here and never occurs on reachable states). -/
def RecordState.marshal (s : RecordState) (k : Key) : MarshalDiff :=
  { deleted := (akeys s.deleted).map (fun n => k.getPath (some n)),
    changed := (akeys s.modified).filterMap (fun n =>
      (alook s.columns n).map (fun r => s.heap.getD r defaultCol)) }

/-- `Record.revert` (record.py lines 284–289): `_columns = copy.copy(_original)`
(reference sharing), then `dict.update` over the column values — update only
adds or overwrites visible entries, it removes nothing — and both pending
sets are cleared.  No storage client is touched (the definition is pure). -/
def RecordState.revert (s : RecordState) : RecordState :=
  let columns := s.original
  let data := columns.foldl (fun d p =>
    let col := s.heap.getD p.2 defaultCol
    aset d col.name col.value) s.data
  { s with columns := columns, data := data, modified := [], deleted := [] }

/-- A call issued to the Storage collaborator by a Record, plus the index
fan-out hook (`index.append(self)`), recorded as a trace.  `batchInsert`
carries `_get_batch_args`: keyspace, row key, `{column_family: columns}`,
with the columns wrapped under the super-column name when the key is super
(`iterators.pack` is external; the payload shape is taken from the spec's
`batch_insert(keyspace, row, {column_family: columns}, consistency)`). -/
inductive Call where
  | remove (keyspace rowKey : String) (path : ColumnPath) (ts : Nat)
  | batchInsert (keyspace rowKey cf : String) (superName : Option String)
      (cols : List Column)
  | indexAppend (idx : Nat)
deriving DecidableEq, Repr

/-- `Record._save_internal` (record.py lines 240–254): one `client.remove`
per deleted path, then `self._deleted.clear()`, then — only when there are
changed columns — a single `client.batch_insert`. -/
def RecordState.saveInternal (s : RecordState) (k : Key) (changes : MarshalDiff)
    (ts : Nat) : RecordState × List Call :=
  let removes := changes.deleted.map (fun p => Call.remove k.keyspace k.key p ts)
  let s1 := { s with deleted := [] }
  let inserts := if changes.changed.isEmpty then ([] : List Call)
    else [Call.batchInsert k.keyspace k.key k.column_family
            (if k.isSuper then k.super_column else none) changes.changed]
  (s1, removes ++ inserts)

/-- `copy.deepcopy(self._columns)`: a fresh heap cell per entry, holding the
same column contents; the dict is rebuilt pointing at the fresh cells
(Python dicts have no duplicate keys, so lookups agree with the source). -/
def deepcopyColumns (heap : List Column) :
    List (String × Nat) → List Column × List (String × Nat)
  | [] => (heap, [])
  | p :: rest =>
    let res := deepcopyColumns (heap ++ [heap.getD p.2 defaultCol]) rest
    (res.1, (p.1, heap.length) :: res.2)

/-- One iteration of `Record.save`'s mirror loop (lines 220–222): once an
exception is pending no further mirror is attempted; a failing mirror
records its exception; a successful mirror replays `_save_internal` with
the same marshalled changes under the mirror's key. -/
def mirrorStep (changes : MarshalDiff) (ts : Nat)
    (acc : RecordState × List Call × Option Nat) (m : Except Nat Key) :
    RecordState × List Call × Option Nat :=
  match acc.2.2 with
  | some _ => acc
  | none =>
    match m with
    | Except.error e => (acc.1, acc.2.1, some e)
    | Except.ok mkey =>
      let r := acc.1.saveInternal mkey changes ts
      (r.1, acc.2.1 ++ r.2, none)

/-- How `Record.save` returned: normally, or raising one of the modelled
exceptions (ErrorMissingField, ErrorMissingKey from `default_key`, or an
exception propagated from a mirror save, tagged by a number). -/
inductive SaveOutcome where
  | ok
  | missingField
  | missingKey
  | raised (e : Nat)
deriving DecidableEq, Repr

/-- `Record.save` (record.py lines 202–238).  A mirror is modelled as
`Except Nat Key`: `.ok mk` is a mirror whose `mirror_key` yields `mk` and
whose `_save_internal` succeeds; `.error e` is a mirror whose save raises
exception `e`.  Indexes are modelled by their count, each `append` recorded
in the trace.  Control flow mirrors the nested try/finally: the primary
`_save_internal` runs first; mirrors run until the first failure; index
appends always run; the outer finally clears `_modified` only when
`changes['changed']` is non-empty and sets `_original` to a deep copy of
`_columns`; on the no-exception path both pending sets are cleared and
`_original = copy.copy(_columns)` (shared references).  The pending
exception is re-raised after cleanup (`SaveOutcome.raised`). -/
def RecordState.save (s : RecordState) (required : List String)
    (mirrors : List (Except Nat Key)) (nIdx : Nat) (ts : Nat) :
    RecordState × List Call × SaveOutcome :=
  if ¬ (s.missing required).isEmpty then (s, [], .missingField)
  else
    match s.key with
    | none => (s, [], .missingKey)
    | some k =>
      let changes := s.marshal k
      let pr := s.saveInternal k changes ts
      let mres : RecordState × List Call × Option Nat :=
        mirrors.foldl (mirrorStep changes ts) (pr.1, pr.2, none)
      let calls := mres.2.1 ++ (List.range nIdx).map Call.indexAppend
      let s3 := if changes.changed.isEmpty then mres.1
        else { mres.1 with modified := [] }
      let dc := deepcopyColumns s3.heap s3.columns
      let s4 := { s3 with heap := dc.1, original := dc.2 }
      match mres.2.2 with
      | some e => (s4, calls, .raised e)
      | none =>
        ({ s4 with modified := [], deleted := [], original := s4.columns },
         calls, .ok)

/-- `Record.remove` (record.py lines 275–282): one storage remove for the
whole key path, then `_clean()`.  `none` models the AttributeError raised
when no key is set. -/
def RecordState.removeRec (s : RecordState) (ts : Nat) :
    Option (RecordState × List Call) :=
  match s.key with
  | some k => some (cleanState, [Call.remove k.keyspace k.key (k.getPath none) ts])
  | none => none

/-! ## SuperColumn container (supercolumn.py) -/

/-- The super-column payload of a slice entry (`scol.super_column`). -/
structure SCData where
  name : String
  columns : List Column
deriving DecidableEq, Repr

/-- One entry of a `get_slice` response, as used by `_iter_columns`:
line 88 reads `scol.super_column.name`, line 92 reads `scol.name`
(cassandra.ttypes is external; the entry is modelled with both fields). -/
structure SCol where
  name : String
  super_column : SCData
deriving DecidableEq, Repr

/-- Result of running the `_iter_columns` generator with bounded fuel:
the entries yielded so far, and whether the generator actually finished
(raised StopIteration) rather than running out of fuel. -/
structure IterResult where
  yielded : List SCol
  finished : Bool
deriving DecidableEq, Repr

/-- The `for scol in scols[fudge:]` body of `_iter_columns` (lines 86–91):
count each entry, yield it, and stop the generator when
`returned >= limit`.  Under Python 2 comparison `None` is less than every
integer, so with the default `limit=None` the guard `returned >= None` is
True as soon as one entry has been yielded and the generator raises
StopIteration right after the first yield.  Returns the entries yielded
from this page, the updated count, whether the limit guard fired, and the
name of the last entry bound to `scol` (used for `start = scol.name` on
line 92; when the page slice is empty, `scol` keeps its binding from the
previous page). -/
def pageLoop (limit : Option Nat) :
    List SCol → Nat → String → List SCol × Nat × Bool × String
  | [], returned, lastName => ([], returned, false, lastName)
  | scol :: rest, returned, _lastName =>
    let returned1 := returned + 1
    let hit := match limit with
      | some l => decide (returned1 ≥ l)
      | none => true
    if hit then ([scol], returned1, true, scol.name)
    else
      let r := pageLoop limit rest returned1 scol.name
      (scol :: r.1, r.2.1, r.2.2.1, r.2.2.2)

/-- `SuperColumn._iter_columns` (supercolumn.py lines 75–94), fuel-bounded
(one fuel unit per `get_slice` page).  The slice request the source sends
is constant — `SliceRange(start=" ", finish="~")` with no count, never the
`start` continuation nor `chunk_size` — so against a deterministic store
every page is the same response `resp`.  `fudge = int(bool(start))` drops
the first element of every page after one with a non-empty `start`;
termination tests are, in source order: empty response, the `limit`
check inside the loop, and `len(scols) < chunk_size`. -/
def iterColumnsAux (resp : List SCol) (chunkSize : Nat) (limit : Option Nat) :
    Nat → String → Nat → String → IterResult
  | 0, _, _, _ => ⟨[], false⟩
  | fuel + 1, start, returned, lastName =>
    let fudge := if start = "" then 0 else 1
    let scols := resp
    if scols.isEmpty then ⟨[], true⟩
    else
      let page := scols.drop fudge
      let r := pageLoop limit page returned lastName
      if r.2.2.1 then ⟨r.1, true⟩
      else if scols.length < chunkSize then ⟨r.1, true⟩
      else
        let next := iterColumnsAux resp chunkSize limit fuel r.2.2.2 r.2.1 r.2.2.2
        ⟨r.1 ++ next.yielded, next.finished⟩

/-- `_iter_columns` with the default arguments used by `__iter__` and
`load_all`: `start=""`, so the first page keeps its first element. -/
def iterColumns (resp : List SCol) (chunkSize : Nat) (limit : Option Nat)
    (fuel : Nat) : IterResult :=
  iterColumnsAux resp chunkSize limit fuel "" 0 ""

/-- A nested child held by a SuperColumn container.  Modelled from the spec:
columnfamily.py is not under src/; per the spec the child is a Record-like
structure, carried here as a `RecordState` plus its position metadata
(`pk.supercol`, and its `pk` as a `Key`: keyspace=table, key=row key,
column_family=family). -/
structure CFChild where
  supercol : String
  key : Key
  record : RecordState
deriving DecidableEq, Repr

/-- A storage call issued by `SuperColumn.save`. -/
inductive SCCall where
  | remove (table rowKey : String) (path : ColumnPath) (ts : Nat)
      (consistency : Nat)
  | batchInsertSuper (table rowKey : String)
      (cfmap : List (String × List (List Column)))
deriving DecidableEq, Repr

/-- The body of `SuperColumn.save`'s loop over `self.values()` for one
child (lines 142–153): a modified child's `changed` tuple is appended under
its supercol key, and its `deleted` entries each become one immediate
remove call with path `(family, container name, c.name)` at consistency
ZERO. -/
def scStep (name : String) (ts : Nat)
    (acc : List (String × List (List Column)) × List SCCall) (c : CFChild) :
    List (String × List (List Column)) × List SCCall :=
  if c.record.isModified then
    let changes := c.record.marshal c.key
    let m := if changes.changed.isEmpty then acc.1
      else aset acc.1 c.supercol ((alook acc.1 c.supercol).getD []
             ++ [changes.changed])
    let rs := if changes.deleted.isEmpty then ([] : List SCCall)
      else changes.deleted.map (fun p =>
        SCCall.remove c.key.keyspace c.key.key
          { column_family := c.key.column_family, super_column := some name,
            column := p.column } ts 0)
    (m, acc.2 ++ rs)
  else acc

/-- `SuperColumn.save` (supercolumn.py lines 137–157).  `mutation.cfmap` is
pre-seeded with `(child.pk.supercol, [])` for every held child; the loop
then contributes each modified child's diff via `scStep`; after the loop, a
single `batch_insert_super_column` is issued iff the cfmap dict is
non-empty. -/
def scSave (name : String) (pkTable pkKey : String) (children : List CFChild)
    (ts : Nat) : List SCCall :=
  let cfmap0 : List (String × List (List Column)) :=
    children.foldl (fun m c => aset m c.supercol []) []
  let res := children.foldl (scStep name ts) (cfmap0, [])
  res.2 ++ (if res.1.isEmpty then [] else [SCCall.batchInsertSuper pkTable pkKey res.1])

/-- Whether a SuperColumn storage call is the batched super insert. -/
def SCCall.isBatch : SCCall → Bool
  | SCCall.batchInsertSuper _ _ _ => true
  | _ => false

/-- Whether a SuperColumn storage call is an immediate remove. -/
def SCCall.isRemoveCall : SCCall → Bool
  | SCCall.remove _ _ _ _ _ => true
  | _ => false

/-- The individual remove calls `SuperColumn.save` issues for one child:
one per entry of a modified child's marshalled `deleted` sequence, none
for an unmodified child. -/
def childRemoves (name : String) (ts : Nat) (c : CFChild) : List SCCall :=
  if c.record.isModified then
    (c.record.marshal c.key).deleted.map (fun p =>
      SCCall.remove c.key.keyspace c.key.key
        { column_family := c.key.column_family, super_column := some name,
          column := p.column } ts 0)
  else []

/-- A group of columns carried in the batched super insert originates as
the (non-empty) `changed` sequence of some modified child, filed under that
child's supercol key. -/
def fromModifiedChild (children : List CFChild) (key : String)
    (grp : List Column) : Prop :=
  ∃ c ∈ children, c.record.isModified = true ∧ key = c.supercol
    ∧ grp = (c.record.marshal c.key).changed ∧ grp ≠ []

/-! ## Invariants and concrete fixtures -/

/-- Reachable-state well-formedness: every reference held by `_columns` or
`_original` is a live heap cell whose column bears the name it is filed
under, and every pending-modified name is backed by a `_columns` entry. -/
def wfState (s : RecordState) : Prop :=
  (∀ p ∈ s.columns, p.2 < s.heap.length
      ∧ (s.heap.getD p.2 defaultCol).name = p.1)
  ∧ (∀ p ∈ s.original, p.2 < s.heap.length
      ∧ (s.heap.getD p.2 defaultCol).name = p.1)
  ∧ (∀ p ∈ s.modified, amem s.columns p.1 = true)

instance (s : RecordState) : Decidable (wfState s) := by
  unfold wfState; infer_instance

/-- The mutual-exclusion invariant: no name is simultaneously
pending-modified and pending-deleted. -/
def mutualExcl (s : RecordState) : Prop :=
  ∀ n : String, amem s.modified n = true → amem s.deleted n = false

/-- A plain (non-super) key, as in the spec's concrete scenario. -/
def kU1 : Key := { keyspace := "KS", column_family := "CF", key := "u1" }

/-- A record loaded from storage with one column `n = "a"`. -/
def sLoaded : RecordState :=
  RecordState.loadRec kU1 [{ name := "n", value := "a", timestamp := 5 }]

/-- `sLoaded` after `set("n", "b")`: the column is pending-modified with
value `"b"` while the original snapshot still holds `"a"`. -/
def sB : RecordState := sLoaded.setitem "n" "b" 11

/-- A synthetic store response holding 24 super-column children r0..r23. -/
def resp24 : List SCol :=
  (List.range 24).map (fun i =>
    { name := "r" ++ toString i,
      super_column := { name := "r" ++ toString i, columns := [] } })

/-! ## Association-list and heap lemmas -/

theorem alook_aset_self {α : Type} (l : List (String × α)) (k : String) (v : α) :
    alook (aset l k v) k = some v := by
  induction l with
  | nil => simp [aset, alook]
  | cons p rest ih =>
    obtain ⟨a, b⟩ := p
    by_cases h : a = k
    · subst h; simp [aset, alook]
    · simp [aset, alook, h, ih]

theorem alook_aset_ne {α : Type} (l : List (String × α)) (k n : String) (v : α)
    (h : k ≠ n) : alook (aset l k v) n = alook l n := by
  induction l with
  | nil => simp [aset, alook, h]
  | cons p rest ih =>
    obtain ⟨a, b⟩ := p
    by_cases ha : a = k
    · subst ha; simp [aset, alook, h]
    · simp only [aset, if_neg ha, alook]
      by_cases hn : a = n <;> simp [hn, ih]

theorem alook_adel_self {α : Type} (l : List (String × α)) (k : String) :
    alook (adel l k) k = none := by
  induction l with
  | nil => simp [adel, alook]
  | cons p rest ih =>
    obtain ⟨a, b⟩ := p
    by_cases h : a = k
    · simp [adel, h, ih]
    · simp [adel, alook, h, ih]

theorem alook_adel_ne {α : Type} (l : List (String × α)) (k n : String)
    (h : k ≠ n) : alook (adel l k) n = alook l n := by
  induction l with
  | nil => simp [adel]
  | cons p rest ih =>
    obtain ⟨a, b⟩ := p
    by_cases ha : a = k
    · subst ha; simp [adel, alook, h, ih]
    · simp only [adel, if_neg ha, alook]
      by_cases hn : a = n <;> simp [hn, ih]

theorem alook_mem {α : Type} {l : List (String × α)} {n : String} {v : α}
    (h : alook l n = some v) : (n, v) ∈ l := by
  induction l with
  | nil => simp [alook] at h
  | cons p rest ih =>
    obtain ⟨a, b⟩ := p
    by_cases ha : a = n
    · subst ha
      simp [alook] at h
      simp [h]
    · simp [alook, ha] at h
      exact List.mem_cons_of_mem _ (ih h)

theorem mem_aset {α : Type} {l : List (String × α)} {k : String} {v : α}
    {p : String × α} (h : p ∈ aset l k v) : p = (k, v) ∨ p ∈ l := by
  induction l with
  | nil => simpa [aset] using h
  | cons q rest ih =>
    obtain ⟨a, b⟩ := q
    by_cases ha : a = k
    · subst ha
      simp only [aset, if_pos rfl] at h
      rcases List.mem_cons.mp h with h1 | h1
      · exact Or.inl h1
      · exact Or.inr (List.mem_cons_of_mem _ h1)
    · simp only [aset, if_neg ha] at h
      rcases List.mem_cons.mp h with h1 | h1
      · exact Or.inr (by simp [h1])
      · rcases ih h1 with h2 | h2
        · exact Or.inl h2
        · exact Or.inr (List.mem_cons_of_mem _ h2)

theorem mem_adel {α : Type} {l : List (String × α)} {k : String}
    {p : String × α} (h : p ∈ adel l k) : p ∈ l := by
  induction l with
  | nil => simp [adel] at h
  | cons q rest ih =>
    obtain ⟨a, b⟩ := q
    by_cases ha : a = k
    · simp only [adel, if_pos ha] at h
      exact List.mem_cons_of_mem _ (ih h)
    · simp only [adel, if_neg ha] at h
      rcases List.mem_cons.mp h with h1 | h1
      · exact h1 ▸ List.mem_cons_self _ _
      · exact List.mem_cons_of_mem _ (ih h1)

theorem amem_true_iff {α : Type} (l : List (String × α)) (n : String) :
    amem l n = true ↔ ∃ v, alook l n = some v := by
  simp [amem, Option.isSome_iff_exists]

theorem amem_mem_akeys {α : Type} {l : List (String × α)} {n : String}
    (h : amem l n = true) : n ∈ akeys l := by
  rcases (amem_true_iff l n).mp h with ⟨v, hv⟩
  exact List.mem_map.mpr ⟨(n, v), alook_mem hv, rfl⟩

theorem mem_akeys_amem {α : Type} {l : List (String × α)} {n : String} :
    n ∈ akeys l → amem l n = true := by
  induction l with
  | nil => intro h; simp [akeys] at h
  | cons p rest ih =>
    obtain ⟨a, b⟩ := p
    intro h
    by_cases ha : a = n
    · simp [amem, alook, ha]
    · have h' : n = a ∨ n ∈ akeys rest := by simpa [akeys] using h
      rcases h' with h1 | h1
      · exact absurd h1.symm ha
      · simpa [amem, alook, ha] using ih h1

theorem getD_append_left {α : Type} (l l' : List α) (n : Nat) (h : n < l.length)
    (d : α) : (l ++ l').getD n d = l.getD n d := by
  simp [List.getD, List.getElem?_append_left h]

theorem getD_append_self {α : Type} (l : List α) (a d : α) :
    (l ++ [a]).getD l.length d = a := by
  simp [List.getD]

theorem getD_set_ne {α : Type} (l : List α) (i j : Nat) (h : i ≠ j) (a d : α) :
    (l.set i a).getD j d = l.getD j d := by
  simp [List.getD, List.getElem?_set_ne h]

theorem getD_set_self {α : Type} (l : List α) (i : Nat) (h : i < l.length)
    (a d : α) : (l.set i a).getD i d = a := by
  simp [List.getD, List.getElem?_set_self, h]

theorem amem_aset_self {α : Type} (l : List (String × α)) (k : String) (v : α) :
    amem (aset l k v) k = true := by
  simp [amem, alook_aset_self]

theorem amem_aset_ne {α : Type} (l : List (String × α)) (k n : String) (v : α)
    (h : k ≠ n) : amem (aset l k v) n = amem l n := by
  simp [amem, alook_aset_ne _ _ _ _ h]

theorem amem_adel_self {α : Type} (l : List (String × α)) (k : String) :
    amem (adel l k) k = false := by
  simp [amem, alook_adel_self]

theorem amem_adel_ne {α : Type} (l : List (String × α)) (k n : String)
    (h : k ≠ n) : amem (adel l k) n = amem l n := by
  simp [amem, alook_adel_ne _ _ _ h]

theorem amem_nil {α : Type} (n : String) :
    amem ([] : List (String × α)) n = false := rfl

theorem mutualExcl_of_modified_nil {s : RecordState} (h : s.modified = []) :
    mutualExcl s := by
  intro n hn
  rw [h, amem_nil] at hn
  cases hn

theorem mutualExcl_of_deleted_nil {s : RecordState} (h : s.deleted = []) :
    mutualExcl s := by
  intro n _
  rw [h, amem_nil]

/-! ## Characterisations of the Record operations -/

/-- When the unchanged-value guard fires, `__setitem__` returns before
touching any state. -/
theorem setitem_of_noop (s : RecordState) (i v : String) (ts : Nat)
    (h : s.setNoop i v = true) : s.setitem i v ts = s := by
  simp [RecordState.setitem, h]

/-- Full description of `__setitem__` past the unchanged-value guard:
`_original` is untouched, the name is marked modified and un-deleted, and
`_columns[i]` ends up referencing a cell holding exactly
`⟨i, sanitize v, ts⟩` which is distinct from `_original`'s cell for `i`;
every other live cell and every other `_columns` entry is unchanged. -/
theorem setitem_spec (s : RecordState) (i v : String) (ts : Nat)
    (hno : s.setNoop i v = false)
    (hwc : ∀ p ∈ s.columns, p.2 < s.heap.length)
    (hwo : ∀ p ∈ s.original, p.2 < s.heap.length)
    (hnc : ∀ p ∈ s.columns, (s.heap.getD p.2 defaultCol).name = p.1) :
    (s.setitem i v ts).original = s.original
    ∧ (s.setitem i v ts).modified = aset s.modified i true
    ∧ (s.setitem i v ts).deleted = adel s.deleted i
    ∧ ∃ wr,
        alook (s.setitem i v ts).columns i = some wr
        ∧ (s.setitem i v ts).heap.getD wr defaultCol
            = { name := i, value := sanitize v, timestamp := ts }
        ∧ (∀ j, j < s.heap.length → j ≠ wr →
            (s.setitem i v ts).heap.getD j defaultCol = s.heap.getD j defaultCol)
        ∧ (∀ r, alook s.original i = some r → wr ≠ r)
        ∧ (∀ m, m ≠ i → alook (s.setitem i v ts).columns m = alook s.columns m) := by
  cases hcol : alook s.columns i with
  | none =>
    have hlen : ∀ r, alook s.original i = some r → r ≠ s.heap.length :=
      fun r hr => Nat.ne_of_lt (hwo _ (alook_mem hr))
    have heq : s.setitem i v ts = { s with
        data := aset s.data i (sanitize v),
        heap := (s.heap ++ [{ name := i : Column }]).set s.heap.length
          { name := i, value := sanitize v, timestamp := ts },
        columns := aset s.columns i s.heap.length,
        modified := aset s.modified i true,
        deleted := adel s.deleted i } := by
      cases horig : alook s.original i with
      | none =>
        simp [RecordState.setitem, hno, hcol, horig, alook_aset_self,
              getD_append_self]
      | some r =>
        simp [RecordState.setitem, hno, hcol, horig, alook_aset_self,
              getD_append_self, hlen r horig]
    rw [heq]
    refine ⟨rfl, rfl, rfl, s.heap.length, alook_aset_self _ _ _, ?_, ?_, ?_, ?_⟩
    · rw [getD_set_self]
      simp
    · intro j hj hne
      rw [getD_set_ne _ _ _ (Ne.symm hne), getD_append_left _ _ _ hj]
    · exact fun r hr => (hlen r hr).symm
    · exact fun m hm => alook_aset_ne _ _ _ _ (Ne.symm hm)
  | some r0 =>
    have hmem := alook_mem hcol
    have hr0 : r0 < s.heap.length := hwc _ hmem
    have hname0 : (s.heap.getD r0 defaultCol).name = i := hnc _ hmem
    have hcell : { s.heap.getD r0 defaultCol with
        value := sanitize v, timestamp := ts }
        = { name := i, value := sanitize v, timestamp := ts } := by
      rcases hget : s.heap.getD r0 defaultCol with ⟨nm, vl, tm⟩
      rw [hget] at hname0
      simp at hname0
      simp [hname0]
    cases horig : alook s.original i with
    | none =>
      have heq : s.setitem i v ts = { s with
          data := aset s.data i (sanitize v),
          heap := s.heap.set r0 { s.heap.getD r0 defaultCol with
            value := sanitize v, timestamp := ts },
          modified := aset s.modified i true,
          deleted := adel s.deleted i } := by
        simp [RecordState.setitem, hno, hcol, horig]
      rw [heq]
      refine ⟨rfl, rfl, rfl, r0, hcol, ?_, ?_, ?_, fun m _ => rfl⟩
      · rw [getD_set_self _ _ hr0, hcell]
      · intro j _ hne
        rw [getD_set_ne _ _ _ (Ne.symm hne)]
      · intro r hr
        exact absurd hr (by simp)
    | some r =>
      by_cases hrr : r = r0
      · subst hrr
        have heq : s.setitem i v ts = { s with
            data := aset s.data i (sanitize v),
            heap := (s.heap ++ [s.heap.getD r defaultCol]).set s.heap.length
              { s.heap.getD r defaultCol with
                value := sanitize v, timestamp := ts },
            columns := aset s.columns i s.heap.length,
            modified := aset s.modified i true,
            deleted := adel s.deleted i } := by
          simp [RecordState.setitem, hno, hcol, horig, alook_aset_self,
                getD_append_self]
        rw [heq]
        refine ⟨rfl, rfl, rfl, s.heap.length, alook_aset_self _ _ _, ?_, ?_, ?_, ?_⟩
        · rw [getD_set_self, hcell]
          simp
        · intro j hj hne
          rw [getD_set_ne _ _ _ (Ne.symm hne), getD_append_left _ _ _ hj]
        · intro r' hr'
          have : r' = r := by simpa using hr'.symm
          subst this
          exact (Nat.ne_of_lt hr0).symm
        · exact fun m hm => alook_aset_ne _ _ _ _ (Ne.symm hm)
      · have heq : s.setitem i v ts = { s with
            data := aset s.data i (sanitize v),
            heap := s.heap.set r0 { s.heap.getD r0 defaultCol with
              value := sanitize v, timestamp := ts },
            modified := aset s.modified i true,
            deleted := adel s.deleted i } := by
          simp [RecordState.setitem, hno, hcol, horig, hrr]
        rw [heq]
        refine ⟨rfl, rfl, rfl, r0, hcol, ?_, ?_, ?_, fun m _ => rfl⟩
        · rw [getD_set_self _ _ hr0, hcell]
        · intro j _ hne
          rw [getD_set_ne _ _ _ (Ne.symm hne)]
        · intro r' hr'
          have : r' = r := by simpa using hr'.symm
          subst this
          exact fun h => hrr h.symm

/-- `__delitem__` on a present item: the exact post-state. -/
theorem delitem_spec (s : RecordState) (i : String) (s' : RecordState)
    (h : s.delitem i = some s') :
    s' = { s with data := adel s.data i,
                  deleted := aset s.deleted i (amem s.original i),
                  modified := adel s.modified i,
                  columns := adel s.columns i } := by
  unfold RecordState.delitem at h
  cases h1 : alook s.data i <;> cases h2 : alook s.columns i <;>
    rw [h1, h2] at h <;> simp at h
  exact h.symm

/-- The pending-set bookkeeping of `__setitem__` past the guard, with no
well-formedness assumptions: the name is marked modified and removed from
the pending deletions. -/
theorem setitem_modified_deleted (s : RecordState) (i v : String) (ts : Nat)
    (hno : s.setNoop i v = false) :
    (s.setitem i v ts).modified = aset s.modified i true
    ∧ (s.setitem i v ts).deleted = adel s.deleted i := by
  unfold RecordState.setitem
  rw [hno]
  cases halook : alook s.columns i <;> simp

/-- A record with empty pending sets marshals an empty diff. -/
theorem marshal_clean (s : RecordState) (k : Key) (hm : s.modified = [])
    (hd : s.deleted = []) : s.marshal k = ⟨[], []⟩ := by
  simp [RecordState.marshal, hm, hd, akeys]

/-- A record whose first pending-modified name is backed by `_columns`
marshals a non-empty `changed` sequence. -/
theorem marshal_changed_ne_nil (s : RecordState) (k : Key)
    (hsub : ∀ p ∈ s.modified, amem s.columns p.1 = true)
    (hne : s.modified ≠ []) : (s.marshal k).changed ≠ [] := by
  cases hmod : s.modified with
  | nil => exact absurd hmod hne
  | cons p rest =>
    have hmem : amem s.columns p.1 = true := by
      apply hsub
      rw [hmod]
      exact List.mem_cons_self _ _
    obtain ⟨r, hr⟩ := (amem_true_iff _ _).mp hmem
    simp only [RecordState.marshal, akeys, hmod, List.map_cons,
      List.filterMap_cons, hr, Option.map_some]
    intro h
    cases h

/-- The mirror loop never resurrects pending deletions. -/
theorem foldl_mirrorStep_deleted (ch : MarshalDiff) (ts : Nat) :
    ∀ (ms : List (Except Nat Key)) (acc : RecordState × List Call × Option Nat),
      acc.1.deleted = [] →
      (ms.foldl (mirrorStep ch ts) acc).1.deleted = [] := by
  intro ms
  induction ms with
  | nil => intro acc h; exact h
  | cons m rest ih =>
    intro acc h
    rw [List.foldl_cons]
    apply ih
    cases hacc : acc.2.2 with
    | some e => simp [mirrorStep, hacc, h]
    | none =>
      cases m with
      | error e => simp [mirrorStep, hacc, h]
      | ok mkey => simp [mirrorStep, hacc, RecordState.saveInternal]

/-- With an empty marshalled diff, the mirror loop issues no calls. -/
theorem foldl_mirrorStep_nil_calls (ts : Nat) :
    ∀ (ms : List (Except Nat Key)) (acc : RecordState × List Call × Option Nat),
      (ms.foldl (mirrorStep ⟨[], []⟩ ts) acc).2.1 = acc.2.1 := by
  intro ms
  induction ms with
  | nil => intro acc; rfl
  | cons m rest ih =>
    intro acc
    rw [List.foldl_cons, ih]
    cases hacc : acc.2.2 with
    | some e => simp [mirrorStep, hacc]
    | none =>
      cases m with
      | error e => simp [mirrorStep, hacc]
      | ok mkey => simp [mirrorStep, hacc, RecordState.saveInternal]

/-- `deepcopyColumns` only appends fresh cells to the heap. -/
theorem deepcopy_heap_extends :
    ∀ (cols : List (String × Nat)) (heap : List Column),
      ∃ ext, (deepcopyColumns heap cols).1 = heap ++ ext := by
  intro cols
  induction cols with
  | nil => intro heap; exact ⟨[], by simp [deepcopyColumns]⟩
  | cons p rest ih =>
    intro heap
    obtain ⟨ext, hext⟩ := ih (heap ++ [heap.getD p.2 defaultCol])
    refine ⟨heap.getD p.2 defaultCol :: ext, ?_⟩
    show (deepcopyColumns (heap ++ [heap.getD p.2 defaultCol]) rest).1 = _
    rw [hext, List.append_assoc]
    rfl

/-- The dict produced by `deepcopyColumns` resolves every name to a fresh
cell holding the same column contents as the source dict resolved it to. -/
theorem deepcopy_content :
    ∀ (cols : List (String × Nat)) (heap : List Column),
      (∀ p ∈ cols, p.2 < heap.length) → ∀ n,
      (alook (deepcopyColumns heap cols).2 n).map
        (fun j => (deepcopyColumns heap cols).1.getD j defaultCol)
      = (alook cols n).map (fun r => heap.getD r defaultCol) := by
  intro cols
  induction cols with
  | nil => intro heap _ n; simp [deepcopyColumns, alook]
  | cons p rest ih =>
    intro heap hwf n
    obtain ⟨a, r⟩ := p
    by_cases han : a = n
    · subst han
      have hL : alook (deepcopyColumns heap ((a, r) :: rest)).2 a
          = some heap.length := by
        show alook ((a, heap.length) :: _) a = _
        simp [alook]
      have hR : alook ((a, r) :: rest) a = some r := by simp [alook]
      rw [hL, hR]
      obtain ⟨ext, hext⟩ := deepcopy_heap_extends rest
        (heap ++ [heap.getD r defaultCol])
      have hH : (deepcopyColumns heap ((a, r) :: rest)).1
          = (heap ++ [heap.getD r defaultCol]) ++ ext := hext
      refine congrArg some ?_
      show (deepcopyColumns heap ((a, r) :: rest)).1.getD heap.length defaultCol
          = heap.getD r defaultCol
      rw [hH]
      rw [getD_append_left _ _ _ (by simp)]
      rw [getD_append_self]
    · have hL : alook (deepcopyColumns heap ((a, r) :: rest)).2 n
          = alook (deepcopyColumns (heap ++ [heap.getD r defaultCol]) rest).2 n := by
        show alook ((a, heap.length) :: _) n = _
        simp [alook, han]
      have hR : alook ((a, r) :: rest) n = alook rest n := by simp [alook, han]
      rw [hL, hR]
      have hH : (deepcopyColumns heap ((a, r) :: rest)).1
          = (deepcopyColumns (heap ++ [heap.getD r defaultCol]) rest).1 := rfl
      rw [hH]
      have hwf' : ∀ q ∈ rest, q.2 < (heap ++ [heap.getD r defaultCol]).length := by
        intro q hq
        have := hwf q (List.mem_cons_of_mem _ hq)
        simp only [List.length_append, List.length_cons]
        omega
      rw [ih (heap ++ [heap.getD r defaultCol]) hwf' n]
      cases hrest : alook rest n with
      | none => rfl
      | some r' =>
        have hr' : r' < heap.length :=
          hwf _ (List.mem_cons_of_mem _ (alook_mem hrest))
        refine congrArg some ?_
        exact getD_append_left _ _ _ hr' _

/-- `Record.save` on a valid, keyed record with one failing mirror and one
index: the exact result — the primary save's calls followed by the index
append, the cleaned-up state with a deep-copied `_original`, and the
mirror's exception re-raised. -/
theorem save_raised_spec (s : RecordState) (req : List String) (k : Key)
    (e ts : Nat)
    (hvalid : (s.missing req).isEmpty = true)
    (hkey : s.key = some k)
    (hsub : ∀ p ∈ s.modified, amem s.columns p.1 = true) :
    s.save req [Except.error e] 1 ts
    = ({ s with modified := [], deleted := [],
                heap := (deepcopyColumns s.heap s.columns).1,
                original := (deepcopyColumns s.heap s.columns).2 },
       (s.saveInternal k (s.marshal k) ts).2 ++ [Call.indexAppend 0],
       SaveOutcome.raised e) := by
  have hs1 : (s.saveInternal k (s.marshal k) ts).1 = { s with deleted := [] } := rfl
  by_cases hc : (s.marshal k).changed.isEmpty
  · have hmod : s.modified = [] := by
      by_contra hne
      exact marshal_changed_ne_nil s k hsub hne (List.isEmpty_iff.mp hc)
    simp only [RecordState.save, hvalid, hkey]
    simp [mirrorStep, RecordState.saveInternal, hc, hmod, List.range_succ]
    exact hkey
  · simp only [RecordState.save, hvalid, hkey]
    simp [mirrorStep, RecordState.saveInternal, hc, List.range_succ]
    exact hkey

/-- After any `Record.save`, either the state was returned untouched (a
precondition failed) or the pending-deleted set is empty. -/
theorem save_state_cases (s : RecordState) (req : List String)
    (ms : List (Except Nat Key)) (nIdx ts : Nat) :
    (s.save req ms nIdx ts).1 = s ∨ (s.save req ms nIdx ts).1.deleted = [] := by
  by_cases hv : (s.missing req).isEmpty
  · cases hk : s.key with
    | none => left; simp [RecordState.save, hv, hk]
    | some k =>
      right
      have hdel : (ms.foldl (mirrorStep (s.marshal k) ts)
          ((s.saveInternal k (s.marshal k) ts).1,
           (s.saveInternal k (s.marshal k) ts).2, none)).1.deleted = [] :=
        foldl_mirrorStep_deleted _ _ ms _ rfl
      simp only [RecordState.save, hv, hk, not_true, if_false]
      split <;> (try split) <;> simp_all
  · left
    simp [RecordState.save, hv]

/-- One SuperColumn save step appends exactly the child's remove calls to
the call accumulator. -/
theorem scStep_removes (name : String) (ts : Nat)
    (acc : List (String × List (List Column)) × List SCCall) (c : CFChild) :
    (scStep name ts acc c).2 = acc.2 ++ childRemoves name ts c := by
  unfold scStep childRemoves
  cases hmod : c.record.isModified
  · simp [hmod]
  · cases hdel : (c.record.marshal c.key).deleted <;> simp [hmod, hdel]

/-- The SuperColumn save loop collects, in order, one remove call per
deleted entry of each modified child. -/
theorem foldl_scStep_removes (name : String) (ts : Nat) :
    ∀ (cs : List CFChild) (acc : List (String × List (List Column)) × List SCCall),
      (cs.foldl (scStep name ts) acc).2
        = acc.2 ++ cs.flatMap (childRemoves name ts) := by
  intro cs
  induction cs with
  | nil => intro acc; simp
  | cons c rest ih =>
    intro acc
    rw [List.foldl_cons, ih]
    rw [scStep_removes]
    simp

/-- Every call produced by `childRemoves` is an immediate remove (never the
batch insert). -/
theorem childRemoves_shape (name : String) (ts : Nat) (c : CFChild) :
    ∀ x ∈ childRemoves name ts c,
      SCCall.isRemoveCall x = true ∧ SCCall.isBatch x = false := by
  intro x hx
  unfold childRemoves at hx
  cases hmod : c.record.isModified <;> rw [hmod] at hx
  · simp at hx
  · simp only [if_pos] at hx
    obtain ⟨p, _, hp⟩ := List.mem_map.mp hx
    rw [← hp]
    exact ⟨rfl, rfl⟩

/-- The pre-seeded cfmap holds only empty group lists. -/
theorem cfmap0_groups_nil :
    ∀ (cs : List CFChild) (m0 : List (String × List (List Column))),
      (∀ en ∈ m0, en.2 = ([] : List (List Column))) →
      ∀ en ∈ cs.foldl (fun m c => aset m c.supercol ([] : List (List Column))) m0,
        en.2 = ([] : List (List Column)) := by
  intro cs
  induction cs with
  | nil => intro m0 h; exact h
  | cons c rest ih =>
    intro m0 h
    rw [List.foldl_cons]
    apply ih
    intro en hen
    rcases mem_aset hen with heq | hmem
    · rw [heq]
    · exact h en hmem

/-- Fold invariant for the batched cfmap: every group held under any key
is the non-empty `changed` sequence of some modified child of the full
container, filed under that child's supercol. -/
theorem foldl_scStep_cfmap (name : String) (ts : Nat)
    (children : List CFChild) :
    ∀ (cs : List CFChild), (∀ c ∈ cs, c ∈ children) →
    ∀ (acc : List (String × List (List Column)) × List SCCall),
    (∀ en ∈ acc.1, ∀ grp ∈ en.2, fromModifiedChild children en.1 grp) →
    ∀ en ∈ (cs.foldl (scStep name ts) acc).1, ∀ grp ∈ en.2,
      fromModifiedChild children en.1 grp := by
  intro cs
  induction cs with
  | nil => intro _ acc hacc; exact hacc
  | cons c rest ih =>
    intro hsub acc hacc
    rw [List.foldl_cons]
    apply ih (fun c' hc' => hsub c' (List.mem_cons_of_mem _ hc'))
    intro en hen grp hgrp
    unfold scStep at hen
    cases hmod : c.record.isModified <;> rw [hmod] at hen
    · simp at hen
      exact hacc en hen grp hgrp
    · simp only [if_pos] at hen
      by_cases hch : (c.record.marshal c.key).changed.isEmpty
      · rw [if_pos hch] at hen
        exact hacc en hen grp hgrp
      · rw [if_neg hch] at hen
        rcases mem_aset hen with heq | hmem
        · rw [heq] at hgrp ⊢
          rcases List.mem_append.mp hgrp with hold | hnew

          · cases halook : alook acc.1 c.supercol with
            | none => rw [halook] at hold; simp at hold
            | some gs =>
              rw [halook] at hold
              simp only [Option.getD_some] at hold
              exact hacc _ (alook_mem halook) grp hold
          · have hgrpc : grp = (c.record.marshal c.key).changed := by
              simpa using hnew
            exact ⟨c, hsub c (List.mem_cons_self _ _), hmod, rfl, hgrpc,
              by rw [hgrpc]; exact fun hnil => hch (by rw [hnil]; rfl)⟩
        · exact hacc en hmem grp hgrp

/-! ## Claims -/

/-- C1.  The claim states that deleting a name absent from the original
snapshot never puts it in the pending-deleted set, so the next `marshal()`
emits no tombstone for it.  The code violates this: `__delitem__` stores
`self._deleted[item] = item in self._original`, so the KEY enters
`_deleted` even when the stored flag is `False`, and `_marshal` iterates
`self._deleted.keys()`, ignoring the flag.  Concretely: on a fresh record,
`set("x", "v")` then `delete("x")` (with `"x"` never in `_original`) leaves
`"x"` in `_deleted` and the marshalled `deleted` sequence contains the
tombstone path for `"x"` — contradicting the claim and the source's own
comment "Don't record this as a deletion if it wouldn't require a
remove()". -/
theorem c1_unpersisted_delete_emits_tombstone :
    (((cleanState.setitem "x" "v" 1).delitem "x").isSome = true)
    ∧ amem ((((cleanState.setitem "x" "v" 1).delitem "x").getD
        cleanState)).original "x" = false
    ∧ kU1.getPath (some "x") ∈
        (((((cleanState.setitem "x" "v" 1).delitem "x").getD
          cleanState)).marshal kU1).deleted := by
  decide

/-- C7.  The claim states that `revert()` restores the visible column state
to exactly the original snapshot, discarding columns added since load.  The
code violates this for added columns: `revert` rebuilds `_columns` from
`_original` and runs `dict.update` with the original values, but
`dict.update` never removes keys, so a column added after load stays
visible on the record.  Concretely: on a fresh record (empty original),
`set("x", "v")` then `revert()` leaves the visible dict still holding
`x = "v"` while the original snapshot, `_columns`, and both pending sets
are empty — contradicting the claim and the method's own docstring
("restoring to the state we were in when loaded"). -/
theorem c7_revert_keeps_added_column_visible :
    alook (cleanState.setitem "x" "v" 1).revert.data "x" = some "v"
    ∧ (cleanState.setitem "x" "v" 1).revert.original = []
    ∧ (cleanState.setitem "x" "v" 1).revert.columns = []
    ∧ (cleanState.setitem "x" "v" 1).revert.modified = []
    ∧ (cleanState.setitem "x" "v" 1).revert.deleted = [] := by
  decide

/-- C2.  The claim states that with 24 children and `chunk_size=10`,
enumeration yields exactly 24 distinct entries with no gap and
terminates, with each page after the first requested from the last key of
the previous page.  The code violates this twice over.  First, the default
`limit=None` makes the in-loop guard `returned >= limit` fire immediately
(in Python 2, `None` is less than every integer, so `1 >= None` is True):
the generator yields the single entry r0 and raises StopIteration — 23 of
the 24 children are never produced.  Second, the request itself is
constant (`SliceRange(start=" ", finish="~")`, no count): neither the
`start` continuation nor `chunk_size` ever reaches the store, so even
without the limit bug the pages could never advance.  The theorem
evaluates the enumeration at the claimed input: it terminates after
yielding exactly one entry, named r0. -/
theorem c2_enumeration_stops_after_one_entry :
    (iterColumns resp24 10 none 9).finished = true
    ∧ (iterColumns resp24 10 none 9).yielded.length = 1
    ∧ (iterColumns resp24 10 none 9).yielded.map SCol.name = ["r0"]
    ∧ (iterColumns resp24 10 none 1).finished = true
    ∧ (iterColumns resp24 10 none 1).yielded.map SCol.name = ["r0"] := by
  decide

/-- C5.  Copy-on-write isolation: on a well-formed record, setting a name
`n` present in the original snapshot to a value different from the
persisted one leaves `_original` untouched (both the map and the referenced
cell), and afterwards `_columns[n]` references a cell distinct from
`_original[n]`'s — so the source's assertion ("Whoops, not modifying the
original column") can never fire. -/
theorem c5_copy_on_write (s : RecordState) (n v : String) (ts : Nat) (r : Nat)
    (hwf : wfState s)
    (horig : alook s.original n = some r)
    (hne : (s.heap.getD r defaultCol).value ≠ sanitize v) :
    (s.setitem n v ts).original = s.original
    ∧ (s.setitem n v ts).heap.getD r defaultCol = s.heap.getD r defaultCol
    ∧ ∃ r', alook (s.setitem n v ts).columns n = some r' ∧ r' ≠ r := by
  have hno : s.setNoop n v = false := by
    simp only [RecordState.setNoop, horig]
    exact beq_eq_false_iff_ne.mpr hne
  obtain ⟨ho, _, _, wr, hcw, _, hpres, hner, _⟩ :=
    setitem_spec s n v ts hno (fun p hp => (hwf.1 p hp).1)
      (fun p hp => (hwf.2.1 p hp).1) (fun p hp => (hwf.1 p hp).2)
  have hrlt : r < s.heap.length := (hwf.2.1 _ (alook_mem horig)).1
  exact ⟨ho, hpres r hrlt (fun h => hner r horig h.symm), wr, hcw, hner r horig⟩

/-- Witness for C5 at a concrete input: a record loaded with `n = "a"`,
then `set("n", "b")`. -/
theorem c5_copy_on_write_witness :
    wfState sLoaded
    ∧ alook sLoaded.original "n" = some 0
    ∧ (sLoaded.heap.getD 0 defaultCol).value ≠ sanitize "b"
    ∧ ((sLoaded.setitem "n" "b" 11).original = sLoaded.original
       ∧ (sLoaded.setitem "n" "b" 11).heap.getD 0 defaultCol
           = sLoaded.heap.getD 0 defaultCol
       ∧ ∃ r', alook (sLoaded.setitem "n" "b" 11).columns "n" = some r'
           ∧ r' ≠ 0) :=
  ⟨by decide, by decide, by decide,
   c5_copy_on_write sLoaded "n" "b" 11 0 (by decide) (by decide) (by decide)⟩

/-- C10.  On a well-formed record with `n` persisted in the original
snapshot, `delete(n)` followed by `set(n, v)` with `v` equal to the
persisted value leaves `n` pending-deleted: the unchanged-value guard in
`__setitem__` returns before the tombstone-cancellation step, so the
second call is a strict no-op, `n` stays in `_deleted`, is absent from
`_modified`, and the next `marshal()` emits the tombstone path for `n`
while `changed` contains no column named `n`. -/
theorem c10_delete_then_set_persisted_value (s s1 : RecordState)
    (n v : String) (ts : Nat) (k : Key) (r : Nat)
    (hwf : wfState s)
    (horig : alook s.original n = some r)
    (hval : (s.heap.getD r defaultCol).value = sanitize v)
    (hdel : s.delitem n = some s1) :
    s1.setitem n v ts = s1
    ∧ amem s1.deleted n = true
    ∧ amem s1.modified n = false
    ∧ k.getPath (some n) ∈ (s1.marshal k).deleted
    ∧ ∀ c ∈ (s1.marshal k).changed, c.name ≠ n := by
  have hs1 := delitem_spec s n s1 hdel
  have ho1 : s1.original = s.original := by rw [hs1]
  have hh1 : s1.heap = s.heap := by rw [hs1]
  have hd1 : s1.deleted = aset s.deleted n (amem s.original n) := by rw [hs1]
  have hm1 : s1.modified = adel s.modified n := by rw [hs1]
  have hc1 : s1.columns = adel s.columns n := by rw [hs1]
  have hdel1 : amem s1.deleted n = true := by
    rw [hd1]; simp [amem, alook_aset_self]
  have hnoop : s1.setNoop n v = true := by
    simp only [RecordState.setNoop, ho1, hh1, horig]
    exact beq_iff_eq.mpr hval
  refine ⟨setitem_of_noop _ _ _ _ hnoop, hdel1, ?_, ?_, ?_⟩
  · rw [hm1]; simp [amem, alook_adel_self]
  · simp only [RecordState.marshal]
    exact List.mem_map.mpr ⟨n, amem_mem_akeys hdel1, rfl⟩
  · intro c hc
    simp only [RecordState.marshal] at hc
    obtain ⟨m, hm, hsome⟩ := List.mem_filterMap.mp hc
    obtain ⟨rm, hrm, hcell⟩ :
        ∃ rm, alook s1.columns m = some rm
          ∧ s1.heap.getD rm defaultCol = c := by
      cases hx : alook s1.columns m with
      | none => rw [hx] at hsome; simp at hsome
      | some rm =>
        rw [hx] at hsome
        refine ⟨rm, rfl, ?_⟩
        simpa using hsome
    have hmn : m ≠ n := by
      intro hEq
      rw [hEq, hc1, alook_adel_self] at hrm
      cases hrm
    have hname : c.name = m := by
      rw [← hcell, hh1]
      have hmem : (m, rm) ∈ s.columns := by
        apply mem_adel
        rw [← hc1]
        exact alook_mem hrm
      exact (hwf.1 _ hmem).2
    rw [hname]
    exact hmn

/-- C6 counterexample.  The claim states that when `original[n]` exists
with value equal to the sanitized `v`, `set(n, v)` is a no-op and `changed`
excludes `n`.  On a record where `n` is already pending-modified (loaded
with `n = "a"`, then `set("n", "b")`), a further `set("n", "a")` does hit
the unchanged-value guard — yet the subsequent `marshal()` still includes a
column named `n` (with the earlier pending value `"b"`) in `changed`,
because the no-op leaves the earlier pending modification in place.  So
"changed excludes n" is false as universally stated. -/
theorem c6_counterexample_prior_pending_modification :
    sB.setNoop "n" "a" = true
    ∧ alook sB.original "n" = some 0
    ∧ (sB.heap.getD 0 defaultCol).value = sanitize "a"
    ∧ ∃ c ∈ ((sB.setitem "n" "a" 12).marshal kU1).changed,
        c.name = "n" ∧ c.value = "b" := by
  decide

/-- C6, amended.  After `set(n, v)` on a well-formed record: if the
unchanged-value guard does not fire, a subsequent `marshal()` includes a
column named `n` with the sanitized value in `changed`; if it fires, the
call is a strict no-op (the whole record state is unchanged, so no
timestamp is assigned and `n` is not added to `modified`), and `changed`
excludes `n` provided `n` was not already pending-modified before the
call. -/
theorem c6_set_marshal_amended (s : RecordState) (n v : String) (ts : Nat)
    (k : Key) (hwf : wfState s) :
    (s.setNoop n v = false →
        ∃ c ∈ ((s.setitem n v ts).marshal k).changed,
          c.name = n ∧ c.value = sanitize v)
    ∧ (s.setNoop n v = true →
        s.setitem n v ts = s
        ∧ (amem s.modified n = false →
            ∀ c ∈ ((s.setitem n v ts).marshal k).changed, c.name ≠ n)) := by
  constructor
  · intro hno
    obtain ⟨_, hm, _, wr, hcw, hcell, _, _, _⟩ :=
      setitem_spec s n v ts hno (fun p hp => (hwf.1 p hp).1)
        (fun p hp => (hwf.2.1 p hp).1) (fun p hp => (hwf.1 p hp).2)
    refine ⟨(s.setitem n v ts).heap.getD wr defaultCol, ?_, ?_⟩
    · simp only [RecordState.marshal]
      apply List.mem_filterMap.mpr
      refine ⟨n, ?_, ?_⟩
      · rw [hm]
        exact amem_mem_akeys (by simp [amem, alook_aset_self])
      · rw [hcw]
        rfl
    · rw [hcell]
      exact ⟨rfl, rfl⟩
  · intro hyes
    have heq := setitem_of_noop s n v ts hyes
    refine ⟨heq, ?_⟩
    intro hnm c hc
    rw [heq] at hc
    simp only [RecordState.marshal] at hc
    obtain ⟨m, hmk, hsome⟩ := List.mem_filterMap.mp hc
    obtain ⟨rm, hrm, hcell⟩ :
        ∃ rm, alook s.columns m = some rm
          ∧ s.heap.getD rm defaultCol = c := by
      cases hx : alook s.columns m with
      | none => rw [hx] at hsome; simp at hsome
      | some rm =>
        rw [hx] at hsome
        refine ⟨rm, rfl, ?_⟩
        simpa using hsome
    have hname : c.name = m := by
      rw [← hcell]
      exact (hwf.1 _ (alook_mem hrm)).2
    intro hfn
    rw [hname] at hfn
    rw [hfn] at hmk
    rw [mem_akeys_amem hmk] at hnm
    cases hnm

/-- Witness for C6's amended theorem at a concrete input (the record loaded
with `n = "a"`, set to `"b"`). -/
theorem c6_set_marshal_amended_witness :
    wfState sLoaded
    ∧ ((sLoaded.setNoop "n" "b" = false →
        ∃ c ∈ ((sLoaded.setitem "n" "b" 12).marshal kU1).changed,
          c.name = "n" ∧ c.value = sanitize "b")
      ∧ (sLoaded.setNoop "n" "b" = true →
        sLoaded.setitem "n" "b" 12 = sLoaded
        ∧ (amem sLoaded.modified "n" = false →
            ∀ c ∈ ((sLoaded.setitem "n" "b" 12).marshal kU1).changed,
              c.name ≠ "n"))) :=
  ⟨by decide, c6_set_marshal_amended sLoaded "n" "b" 12 kU1 (by decide)⟩

/-- C3.  On a record that passes validation and resolves a key, a save
with one failing mirror and one index still invokes the index append,
still clears the pending modified and deleted sets, replaces `_original`
by a (deep) copy of `_columns` — every name resolves to equal column
contents on both sides — and re-raises the mirror's exception. -/
theorem c3_mirror_failure_cleanup (s : RecordState) (req : List String)
    (k : Key) (e ts : Nat)
    (hwf : wfState s)
    (hvalid : (s.missing req).isEmpty = true)
    (hkey : s.key = some k) :
    (s.save req [Except.error e] 1 ts).2.2 = SaveOutcome.raised e
    ∧ Call.indexAppend 0 ∈ (s.save req [Except.error e] 1 ts).2.1
    ∧ (s.save req [Except.error e] 1 ts).1.modified = []
    ∧ (s.save req [Except.error e] 1 ts).1.deleted = []
    ∧ ∀ n : String,
        (alook (s.save req [Except.error e] 1 ts).1.original n).map
          (fun j => (s.save req [Except.error e] 1 ts).1.heap.getD j defaultCol)
        = (alook (s.save req [Except.error e] 1 ts).1.columns n).map
          (fun j => (s.save req [Except.error e] 1 ts).1.heap.getD j defaultCol) := by
  have hs := save_raised_spec s req k e ts hvalid hkey (fun p hp => hwf.2.2 p hp)
  rw [hs]
  refine ⟨rfl, ?_, rfl, rfl, ?_⟩
  · exact List.mem_append.mpr (Or.inr (List.mem_singleton.mpr rfl))
  · intro n
    have hrefs : ∀ p ∈ s.columns, p.2 < s.heap.length := fun p hp => (hwf.1 p hp).1
    have hdc := deepcopy_content s.columns s.heap hrefs n
    rw [hdc]
    cases hcn : alook s.columns n with
    | none => rfl
    | some j =>
      refine congrArg some ?_
      obtain ⟨ext, hext⟩ := deepcopy_heap_extends s.columns s.heap
      show s.heap.getD j defaultCol
          = (deepcopyColumns s.heap s.columns).1.getD j defaultCol
      rw [hext, getD_append_left _ _ _ (hrefs _ (alook_mem hcn))]

/-- Witness for C3 at a concrete input: the dirty record `sB` saved with
one failing mirror (exception tag 7) and one index. -/
theorem c3_mirror_failure_cleanup_witness :
    wfState sB
    ∧ (sB.missing []).isEmpty = true
    ∧ sB.key = some kU1
    ∧ ((sB.save [] [Except.error 7] 1 100).2.2 = SaveOutcome.raised 7
       ∧ Call.indexAppend 0 ∈ (sB.save [] [Except.error 7] 1 100).2.1
       ∧ (sB.save [] [Except.error 7] 1 100).1.modified = []
       ∧ (sB.save [] [Except.error 7] 1 100).1.deleted = []
       ∧ ∀ n : String,
           (alook (sB.save [] [Except.error 7] 1 100).1.original n).map
             (fun j => (sB.save [] [Except.error 7] 1 100).1.heap.getD j defaultCol)
           = (alook (sB.save [] [Except.error 7] 1 100).1.columns n).map
             (fun j => (sB.save [] [Except.error 7] 1 100).1.heap.getD j defaultCol)) :=
  ⟨by decide, by decide, by decide,
   c3_mirror_failure_cleanup sB [] kU1 7 100 (by decide) (by decide) (by decide)⟩

/-- C9.  Saving a valid, keyed record with empty pending sets issues no
storage calls at all: the whole call trace is exactly the index appends —
in particular no `remove` and no `batch_insert` reaches the client. -/
theorem c9_clean_save_no_storage (s : RecordState) (req : List String)
    (k : Key) (ms : List (Except Nat Key)) (nIdx ts : Nat)
    (hmod : s.modified = []) (hdel : s.deleted = [])
    (hvalid : (s.missing req).isEmpty = true) (hkey : s.key = some k) :
    (s.save req ms nIdx ts).2.1 = (List.range nIdx).map Call.indexAppend := by
  have hch : s.marshal k = ⟨[], []⟩ := marshal_clean s k hmod hdel
  have hml := foldl_mirrorStep_nil_calls ts ms ({ s with deleted := [] }, [], none)
  simp only [RecordState.save, hvalid, hkey, hch]
  simp only [RecordState.saveInternal, List.map_nil, List.isEmpty_nil,
    if_true, List.nil_append]
  split
  · simp_all
  · simp only [hml, List.nil_append]
    split <;> rfl

/-- Witness for C9 at a concrete input: the clean record `sLoaded` saved
with one successful mirror and two indexes. -/
theorem c9_clean_save_no_storage_witness :
    sLoaded.modified = []
    ∧ sLoaded.deleted = []
    ∧ (sLoaded.missing []).isEmpty = true
    ∧ sLoaded.key = some kU1
    ∧ (sLoaded.save [] [Except.ok kU1] 2 99).2.1
        = (List.range 2).map Call.indexAppend :=
  ⟨by decide, by decide, by decide, by decide,
   c9_clean_save_no_storage sLoaded [] kU1 [Except.ok kU1] 2 99
     (by decide) (by decide) (by decide) (by decide)⟩

/-- C4.  The mutual-exclusion invariant — no name simultaneously
pending-modified and pending-deleted — is preserved by set, delete, load,
save, revert and remove; and no name appears both as a changed column and
as a deleted tombstone path in one marshalled diff. -/
theorem c4_pending_sets_mutually_exclusive (s s' : RecordState) (i v : String)
    (ts : Nat) (k : Key) (cols : List Column) (req : List String)
    (ms : List (Except Nat Key)) (nIdx : Nat) (rc : RecordState × List Call)
    (hx : mutualExcl s) :
    mutualExcl (s.setitem i v ts)
    ∧ (s.delitem i = some s' → mutualExcl s')
    ∧ mutualExcl (RecordState.loadRec k cols)
    ∧ mutualExcl (s.save req ms nIdx ts).1
    ∧ mutualExcl s.revert
    ∧ (s.removeRec ts = some rc → mutualExcl rc.1)
    ∧ ((∀ p ∈ s.columns, (s.heap.getD p.2 defaultCol).name = p.1) →
        ∀ c ∈ (s.marshal k).changed, ∀ p ∈ (s.marshal k).deleted,
          p.column ≠ some c.name) := by
  refine ⟨?_, ?_, ?_, ?_, ?_, ?_, ?_⟩
  · cases hno : s.setNoop i v with
    | true => rw [setitem_of_noop s i v ts hno]; exact hx
    | false =>
      obtain ⟨hm, hd⟩ := setitem_modified_deleted s i v ts hno
      intro n hn
      rw [hd]
      rw [hm] at hn
      by_cases hni : n = i
      · subst hni; exact amem_adel_self _ _
      · have hne : i ≠ n := fun h => hni h.symm
        rw [amem_adel_ne _ _ _ hne]
        apply hx n
        rwa [amem_aset_ne _ _ _ _ hne] at hn
  · intro hdel
    have hs' := delitem_spec s i s' hdel
    have hm' : s'.modified = adel s.modified i := by rw [hs']
    have hd' : s'.deleted = aset s.deleted i (amem s.original i) := by rw [hs']
    intro n hn
    rw [hd']
    rw [hm'] at hn
    by_cases hni : n = i
    · subst hni
      rw [amem_adel_self] at hn
      cases hn
    · have hne : i ≠ n := fun h => hni h.symm
      rw [amem_aset_ne _ _ _ _ hne]
      apply hx n
      rwa [amem_adel_ne _ _ _ hne] at hn
  · exact mutualExcl_of_modified_nil rfl
  · rcases save_state_cases s req ms nIdx ts with h | h
    · rw [h]; exact hx
    · exact mutualExcl_of_deleted_nil h
  · exact mutualExcl_of_modified_nil rfl
  · intro hrc
    cases hk : s.key with
    | none => simp [RecordState.removeRec, hk] at hrc
    | some kk =>
      simp [RecordState.removeRec, hk] at hrc
      apply mutualExcl_of_modified_nil
      rw [← hrc]
      rfl
  · intro hnames c hc p hp
    simp only [RecordState.marshal] at hc hp
    obtain ⟨m, hmk, hsome⟩ := List.mem_filterMap.mp hc
    obtain ⟨d, hdk, hpd⟩ := List.mem_map.mp hp
    obtain ⟨rm, hrm, hcell⟩ :
        ∃ rm, alook s.columns m = some rm
          ∧ s.heap.getD rm defaultCol = c := by
      cases hy : alook s.columns m with
      | none => rw [hy] at hsome; simp at hsome
      | some rm =>
        rw [hy] at hsome
        refine ⟨rm, rfl, ?_⟩
        simpa using hsome
    have hcname : c.name = m := by
      rw [← hcell]
      exact hnames _ (alook_mem hrm)
    intro heqcol
    rw [← hpd] at heqcol
    have hdm : d = c.name := by simpa [Key.getPath] using heqcol
    rw [hcname] at hdm
    rw [hdm] at hdk
    have h1 : amem s.modified m = true := mem_akeys_amem hmk
    have h2 : amem s.deleted m = true := mem_akeys_amem hdk
    rw [hx m h1] at h2
    cases h2

/-- Witness for C4 at a concrete input: the dirty record `sB`, whose
pending-deleted set is empty. -/
theorem c4_pending_sets_mutually_exclusive_witness :
    mutualExcl sB
    ∧ (mutualExcl (sB.setitem "n" "c" 1)
       ∧ (sB.delitem "n" = some ((sB.delitem "n").getD cleanState) →
            mutualExcl ((sB.delitem "n").getD cleanState))
       ∧ mutualExcl (RecordState.loadRec kU1 [])
       ∧ mutualExcl (sB.save [] [] 0 1).1
       ∧ mutualExcl sB.revert
       ∧ (sB.removeRec 1 = some ((sB.removeRec 1).getD (cleanState, [])) →
            mutualExcl ((sB.removeRec 1).getD (cleanState, [])).1)
       ∧ ((∀ p ∈ sB.columns, (sB.heap.getD p.2 defaultCol).name = p.1) →
            ∀ c ∈ (sB.marshal kU1).changed, ∀ p ∈ (sB.marshal kU1).deleted,
              p.column ≠ some c.name)) :=
  ⟨mutualExcl_of_deleted_nil rfl,
   c4_pending_sets_mutually_exclusive sB ((sB.delitem "n").getD cleanState)
     "n" "c" 1 kU1 [] [] [] 0 ((sB.removeRec 1).getD (cleanState, []))
     (mutualExcl_of_deleted_nil rfl)⟩

/-- C8.  `SuperColumn.save` issues at most one batched super-insert call
per save; the immediate remove calls are exactly one per deleted entry of
each modified child (in order), outside the batch; and every column group
carried by the batch is the non-empty `changed` sequence of some modified
child, keyed by that child's super-column name — deletions are never
carried in the batched insert. -/
theorem c8_supercolumn_save_shape (name pkTable pkKey : String)
    (children : List CFChild) (ts : Nat) :
    ((scSave name pkTable pkKey children ts).filter SCCall.isBatch).length ≤ 1
    ∧ (scSave name pkTable pkKey children ts).filter SCCall.isRemoveCall
        = children.flatMap (childRemoves name ts)
    ∧ (∀ tbl rk cfmap,
        SCCall.batchInsertSuper tbl rk cfmap
            ∈ scSave name pkTable pkKey children ts →
        ∀ en ∈ cfmap, ∀ grp ∈ en.2, fromModifiedChild children en.1 grp) := by
  unfold scSave
  have hrem : (children.foldl (scStep name ts)
      (children.foldl (fun m c => aset m c.supercol []) [], [])).2
      = children.flatMap (childRemoves name ts) := by
    rw [foldl_scStep_removes]
    simp
  have hremOnly : ∀ x ∈ (children.foldl (scStep name ts)
      (children.foldl (fun m c => aset m c.supercol []) [], [])).2,
      SCCall.isRemoveCall x = true ∧ SCCall.isBatch x = false := by
    intro x hx
    rw [hrem] at hx
    obtain ⟨c, _, hc⟩ := List.mem_flatMap.mp hx
    exact childRemoves_shape name ts c x hc
  refine ⟨?_, ?_, ?_⟩
  · rw [List.filter_append]
    have h1 : List.filter SCCall.isBatch (children.foldl (scStep name ts)
        (children.foldl (fun m c => aset m c.supercol []) [], [])).2 = [] :=
      List.filter_eq_nil_iff.mpr (fun x hx => by simp [(hremOnly x hx).2])
    rw [h1]
    split <;> simp [SCCall.isBatch]
  · rw [List.filter_append]
    have h1 : List.filter SCCall.isRemoveCall (children.foldl (scStep name ts)
        (children.foldl (fun m c => aset m c.supercol []) [], [])).2
        = (children.foldl (scStep name ts)
           (children.foldl (fun m c => aset m c.supercol []) [], [])).2 :=
      List.filter_eq_self.mpr (fun x hx => (hremOnly x hx).1)
    rw [h1, hrem]
    split <;> simp [SCCall.isRemoveCall]
  · intro tbl rk cfmap hmem en hen grp hgrp
    rcases List.mem_append.mp hmem with hin | hin
    · have := (hremOnly _ hin).2
      simp [SCCall.isBatch] at this
    · have hcf : cfmap = (children.foldl (scStep name ts)
          (children.foldl (fun m c => aset m c.supercol []) [], [])).1 := by
        by_cases hempt : (children.foldl (scStep name ts)
            (children.foldl (fun m c => aset m c.supercol []) [], [])).1.isEmpty
        · rw [if_pos hempt] at hin
          simp at hin
        · rw [if_neg hempt] at hin
          have hq := List.mem_singleton.mp hin
          simp only [SCCall.batchInsertSuper.injEq] at hq
          exact hq.2.2
      rw [hcf] at hen
      exact foldl_scStep_cfmap name ts children children (fun c hc => hc)
        (children.foldl (fun m c => aset m c.supercol []) [], [])
        (fun en0 hen0 grp0 hgrp0 => absurd hgrp0 (by
          rw [cfmap0_groups_nil children [] (by intro en1 hen1; cases hen1) en0 hen0]
          exact List.not_mem_nil _))
        en hen grp hgrp

/-- Witness for C10 at a concrete input: a record loaded with `n = "a"`,
then `delete("n")`, then `set("n", "a")`. -/
theorem c10_delete_then_set_persisted_value_witness :
    wfState sLoaded
    ∧ alook sLoaded.original "n" = some 0
    ∧ (sLoaded.heap.getD 0 defaultCol).value = sanitize "a"
    ∧ sLoaded.delitem "n" = some ((sLoaded.delitem "n").getD cleanState)
    ∧ (((sLoaded.delitem "n").getD cleanState).setitem "n" "a" 9
         = (sLoaded.delitem "n").getD cleanState
       ∧ amem ((sLoaded.delitem "n").getD cleanState).deleted "n" = true
       ∧ amem ((sLoaded.delitem "n").getD cleanState).modified "n" = false
       ∧ kU1.getPath (some "n") ∈
           (((sLoaded.delitem "n").getD cleanState).marshal kU1).deleted
       ∧ ∀ c ∈ (((sLoaded.delitem "n").getD cleanState).marshal kU1).changed,
           c.name ≠ "n") :=
  ⟨by decide, by decide, by decide, by decide,
   c10_delete_then_set_persisted_value sLoaded
     ((sLoaded.delitem "n").getD cleanState) "n" "a" 9 kU1 0
     (by decide) (by decide) (by decide) (by decide)⟩

end Lazyboy
